import Mathlib

/-!
Verification of the `perplex-lead-finder` lead-generation pipeline.

The repository consists of several near-duplicate Supabase edge-function
variants (in `supabase/functions/generate-leads/index.ts` and one further
streaming variant) plus a client page.  This file gives a shallow embedding
of the pipeline's pure core and proves/refutes the specification's claims
about it.

Modelling conventions:
* JavaScript numbers are modelled as `Rat` plus an explicit `nan` marker
  (`JsNum`); post-normalization integer scores are modelled as `Int`.
* JSON values (the output of `JSON.parse` and input to the normalizers) are
  modelled by the inductive `Json`; `undefined` is `Option Json`'s `none`.
* `JSON.parse` is modelled by an executable fueled parser (`parseJson`);
  a parse exception is modelled as `Option.none`.
* `Array.prototype.sort` is stable per the ECMAScript specification and is
  modelled by `List.mergeSort` with the comparator-induced total order.
* `Map` insertion-order semantics are modelled by an association list in
  which `set` of an existing key updates the entry in place (`mapSet`).
* Network calls are modelled by oracle functions passed as parameters;
  a rejected/thrown upstream call is an `Except.error`.
-/

/-- A JavaScript number: a finite value (as a rational) or NaN. -/
inductive JsNum where
  | num (q : ℚ)
  | nan
deriving DecidableEq, Repr

/-- `Math.round`: round half toward positive infinity; NaN propagates. -/
def jsRound : JsNum → JsNum
  | .num q => .num ((⌊q + 1 / 2⌋ : ℤ) : ℚ)
  | .nan => .nan

/-- `Math.min` on two values; NaN propagates. -/
def jsMin : JsNum → JsNum → JsNum
  | .num p, .num q => .num (min p q)
  | _, _ => .nan

/-- `Math.max` on two values; NaN propagates. -/
def jsMax : JsNum → JsNum → JsNum
  | .num p, .num q => .num (max p q)
  | _, _ => .nan

/-- Subtraction of JavaScript numbers; NaN propagates. -/
def jsSub : JsNum → JsNum → JsNum
  | .num p, .num q => .num (p - q)
  | _, _ => .nan

/-- A JSON value, as produced by `JSON.parse`. -/
inductive Json where
  | null
  | bool (b : Bool)
  | num (q : ℚ)
  | str (s : String)
  | arr (elems : List Json)
  | obj (members : List (String × Json))

/-- JavaScript truthiness of a defined value. -/
def truthyJ : Json → Bool
  | .null => false
  | .bool b => b
  | .num q => q != 0
  | .str s => s != ""
  | .arr _ => true
  | .obj _ => true

/-- JavaScript truthiness of a possibly-`undefined` value. -/
def truthy : Option Json → Bool
  | none => false
  | some j => truthyJ j

/-- The logical-or `a || b` of two possibly-`undefined` values. -/
def jsOr (a b : Option Json) : Option Json :=
  if truthy a then a else b

/-- The logical-or `a || d` where the fallback `d` is a defined literal. -/
def orDefault (a : Option Json) (d : Json) : Json :=
  match a with
  | some v => if truthyJ v then v else d
  | none => d

/-- Property access `j[k]` on a JSON value: object lookup (last duplicate
key wins, matching `JSON.parse`), `undefined` on non-objects. -/
def jsonField (j : Json) (k : String) : Option Json :=
  match j with
  | .obj members => members.reverse.lookup k
  | _ => none

/-- Numeric value of a list of decimal digit characters. -/
def digitsVal (cs : List Char) : ℕ :=
  cs.foldl (fun n c => 10 * n + (c.toNat - 48)) 0

/-- Exponent suffix of a JavaScript numeric string: `e`/`E`, optional sign,
digits; scales the mantissa by the corresponding power of ten. -/
def parseExpDigits (m : ℚ) (sign : ℤ) (cs : List Char) : Option ℚ :=
  if cs.isEmpty then none
  else if cs.all Char.isDigit then
    some (m * (10 : ℚ) ^ (sign * (digitsVal cs : ℤ)))
  else none

/-- Optional exponent sign then digits. -/
def parseExpSigned (m : ℚ) : List Char → Option ℚ
  | '+' :: rest => parseExpDigits m 1 rest
  | '-' :: rest => parseExpDigits m (-1) rest
  | rest => parseExpDigits m 1 rest

/-- Optional exponent part of a JavaScript numeric string. -/
def parseExpPart (m : ℚ) : List Char → Option ℚ
  | [] => some m
  | 'e' :: rest => parseExpSigned m rest
  | 'E' :: rest => parseExpSigned m rest
  | _ => none

/-- Unsigned decimal numeral with optional fraction and exponent, as
accepted by JavaScript `Number(...)` coercion of a trimmed string. -/
def parseUnsignedDec (cs : List Char) : Option ℚ :=
  let intPart := cs.takeWhile Char.isDigit
  let rest1 := cs.dropWhile Char.isDigit
  match rest1 with
  | '.' :: rest2 =>
    let fracPart := rest2.takeWhile Char.isDigit
    let rest3 := rest2.dropWhile Char.isDigit
    if intPart.isEmpty && fracPart.isEmpty then none
    else
      parseExpPart
        ((digitsVal intPart : ℚ) + (digitsVal fracPart : ℚ) / (10 : ℚ) ^ fracPart.length)
        rest3
  | _ =>
    if intPart.isEmpty then none
    else parseExpPart (digitsVal intPart : ℚ) rest1

/-- Signed decimal numeral. -/
def parseSignedDec : List Char → Option ℚ
  | '+' :: rest => parseUnsignedDec rest
  | '-' :: rest => (parseUnsignedDec rest).map (fun q => -q)
  | rest => parseUnsignedDec rest

/-- JavaScript whitespace characters recognized by string trimming. -/
def isJsWs (c : Char) : Bool :=
  c = ' ' || c = '\t' || c = '\n' || c = '\r'

/-- `Number(s)` for a string `s`: trim whitespace, empty gives 0, a decimal
numeral gives its value, anything else gives NaN. -/
def strToNum (s : String) : JsNum :=
  let cs := ((s.data.dropWhile isJsWs).reverse.dropWhile isJsWs).reverse
  if cs.isEmpty then .num 0
  else
    match parseSignedDec cs with
    | some q => .num q
    | none => .nan

mutual

/-- JavaScript `String(...)` conversion of a JSON value. -/
def jsToString : Json → String
  | .null => "null"
  | .bool b => if b then ("true") else ("false")
  | .num q => if q.den = 1 then toString q.num else toString q.num ++ "/" ++ toString q.den
  | .str s => s
  | .arr elems => jsArrToString elems
  | .obj _ => "[object Object]"

/-- Comma-joined element conversion used by array `toString`. -/
def jsArrToString : List Json → String
  | [] => ""
  | [j] => jsElemToString j
  | j :: rest => jsElemToString j ++ "," ++ jsArrToString rest

/-- Array elements convert with `null` rendered as the empty string. -/
def jsElemToString : Json → String
  | .null => ""
  | j => jsToString j

end

/-- `Number(...)` coercion of a defined JSON value. -/
def toNumberJ : Json → JsNum
  | .null => .num 0
  | .bool b => .num (if b then 1 else 0)
  | .num q => .num q
  | .str s => strToNum s
  | .arr elems => strToNum (jsArrToString elems)
  | .obj _ => .nan

/-- `Number(...)` coercion of a possibly-`undefined` value. -/
def toNumber : Option Json → JsNum
  | none => .nan
  | some j => toNumberJ j

/-- Skip JSON whitespace. -/
def skipWs : List Char → List Char
  | c :: cs => if c = ' ' || c = '\t' || c = '\n' || c = '\r' then skipWs cs else c :: cs
  | [] => []

/-- Value of a hexadecimal digit, if any. -/
def hexDigitVal (c : Char) : Option ℕ :=
  if '0' ≤ c ∧ c ≤ '9' then some (c.toNat - 48)
  else if 'a' ≤ c ∧ c ≤ 'f' then some (c.toNat - 87)
  else if 'A' ≤ c ∧ c ≤ 'F' then some (c.toNat - 55)
  else none

/-- Body of a JSON string literal, after the opening quote: returns the
decoded characters and the remaining input, or `none` on a malformed
literal (the model of a `JSON.parse` exception). -/
def parseStrChars : List Char → Option (List Char × List Char)
  | [] => none
  | '"' :: rest => some ([], rest)
  | '\\' :: esc =>
    match esc with
    | '"' :: r => (parseStrChars r).map (fun p => ('"' :: p.1, p.2))
    | '\\' :: r => (parseStrChars r).map (fun p => ('\\' :: p.1, p.2))
    | '/' :: r => (parseStrChars r).map (fun p => ('/' :: p.1, p.2))
    | 'b' :: r => (parseStrChars r).map (fun p => ('\x08' :: p.1, p.2))
    | 'f' :: r => (parseStrChars r).map (fun p => ('\x0C' :: p.1, p.2))
    | 'n' :: r => (parseStrChars r).map (fun p => ('\n' :: p.1, p.2))
    | 'r' :: r => (parseStrChars r).map (fun p => ('\r' :: p.1, p.2))
    | 't' :: r => (parseStrChars r).map (fun p => ('\t' :: p.1, p.2))
    | 'u' :: a :: b :: c :: d :: r =>
      match hexDigitVal a, hexDigitVal b, hexDigitVal c, hexDigitVal d with
      | some va, some vb, some vc, some vd =>
        (parseStrChars r).map
          (fun p => (Char.ofNat (va * 4096 + vb * 256 + vc * 16 + vd) :: p.1, p.2))
      | _, _, _, _ => none
    | _ => none
  | c :: rest =>
    if c.toNat < 32 then none
    else (parseStrChars rest).map (fun p => (c :: p.1, p.2))

/-- A strict JSON number at the head of the input: optional minus sign,
integer part without leading zeros, optional fraction, optional exponent.
Returns its value and the remaining input. -/
def parseJsonNumber (cs : List Char) : Option (ℚ × List Char) :=
  let signed := match cs with
    | '-' :: r => (true, r)
    | r => (false, r)
  let body := signed.2
  let intDigits := body.takeWhile Char.isDigit
  let afterInt := body.dropWhile Char.isDigit
  if intDigits.isEmpty then none
  else if intDigits.length > 1 ∧ intDigits.headD '0' = '0' then none
  else
    let intVal : ℚ := (digitsVal intDigits : ℚ)
    let fracState : Option (ℚ × List Char) :=
      match afterInt with
      | '.' :: r =>
        let fracDigits := r.takeWhile Char.isDigit
        let afterFrac := r.dropWhile Char.isDigit
        if fracDigits.isEmpty then none
        else some (intVal + (digitsVal fracDigits : ℚ) / (10 : ℚ) ^ fracDigits.length, afterFrac)
      | r => some (intVal, r)
    match fracState with
    | none => none
    | some (m, rest) =>
      let expState : Option (ℚ × List Char) :=
        match rest with
        | 'e' :: r => parseJsonExp m r
        | 'E' :: r => parseJsonExp m r
        | r => some (m, r)
      match expState with
      | none => none
      | some (v, rest2) => some (if signed.1 then -v else v, rest2)
where
  /-- Exponent tail: optional sign then at least one digit. -/
  parseJsonExp (m : ℚ) (cs : List Char) : Option (ℚ × List Char) :=
    let signed := match cs with
      | '+' :: r => ((1 : ℤ), r)
      | '-' :: r => ((-1 : ℤ), r)
      | r => ((1 : ℤ), r)
    let ds := signed.2.takeWhile Char.isDigit
    let rest := signed.2.dropWhile Char.isDigit
    if ds.isEmpty then none
    else some (m * (10 : ℚ) ^ (signed.1 * (digitsVal ds : ℤ)), rest)

mutual

/-- Fueled recursive-descent parser for a JSON value; the fuel bounds the
call depth, and `none` models a `JSON.parse` exception. -/
def parseVal : ℕ → List Char → Option (Json × List Char)
  | 0, _ => none
  | fuel + 1, cs =>
    match skipWs cs with
    | 'n' :: 'u' :: 'l' :: 'l' :: r => some (.null, r)
    | 't' :: 'r' :: 'u' :: 'e' :: r => some (.bool true, r)
    | 'f' :: 'a' :: 'l' :: 's' :: 'e' :: r => some (.bool false, r)
    | '"' :: r => (parseStrChars r).map (fun p => (.str (String.mk p.1), p.2))
    | '[' :: r =>
      (match skipWs r with
       | ']' :: r2 => some (.arr [], r2)
       | cs2 => parseElems fuel cs2 [])
    | '\x7b' :: r =>
      (match skipWs r with
       | '\x7d' :: r2 => some (.obj [], r2)
       | cs2 => parseMembers fuel cs2 [])
    | c :: r =>
      if c = '-' ∨ c.isDigit then (parseJsonNumber (c :: r)).map (fun p => (.num p.1, p.2))
      else none
    | [] => none

/-- Comma-separated array elements up to the closing bracket. -/
def parseElems : ℕ → List Char → List Json → Option (Json × List Char)
  | 0, _, _ => none
  | fuel + 1, cs, acc =>
    match parseVal fuel cs with
    | none => none
    | some (v, rest) =>
      match skipWs rest with
      | ',' :: r => parseElems fuel r (acc ++ [v])
      | ']' :: r => some (.arr (acc ++ [v]), r)
      | _ => none

/-- Comma-separated object members up to the closing brace. -/
def parseMembers : ℕ → List Char → List (String × Json) → Option (Json × List Char)
  | 0, _, _ => none
  | fuel + 1, cs, acc =>
    match skipWs cs with
    | '"' :: r =>
      (match parseStrChars r with
       | none => none
       | some (kcs, r2) =>
         match skipWs r2 with
         | ':' :: r3 =>
           (match parseVal fuel r3 with
            | none => none
            | some (v, r4) =>
              match skipWs r4 with
              | ',' :: r5 => parseMembers fuel r5 (acc ++ [(String.mk kcs, v)])
              | '\x7d' :: r5 => some (.obj (acc ++ [(String.mk kcs, v)]), r5)
              | _ => none)
         | _ => none)
    | _ => none

end

/-- `JSON.parse` on a whole string: one value, then only trailing
whitespace.  `none` models a thrown `SyntaxError`. -/
def parseJson (s : String) : Option Json :=
  match parseVal (3 * s.length + 16) s.data with
  | some (v, rest) => if (skipWs rest).isEmpty then some v else none
  | none => none

/-- First replacement pass of `safeExtractJson`: the global regex
replacement of three backticks followed by the word json and an optional
newline, scanning left to right over the original text. -/
def stripFenceJson : List Char → List Char
  | '\x60' :: '\x60' :: '\x60' :: 'j' :: 's' :: 'o' :: 'n' :: '\n' :: rest => stripFenceJson rest
  | '\x60' :: '\x60' :: '\x60' :: 'j' :: 's' :: 'o' :: 'n' :: rest => stripFenceJson rest
  | c :: rest => c :: stripFenceJson rest
  | [] => []

/-- Second replacement pass: the global regex replacement of three
backticks and an optional newline. -/
def stripFence : List Char → List Char
  | '\x60' :: '\x60' :: '\x60' :: '\n' :: rest => stripFence rest
  | '\x60' :: '\x60' :: '\x60' :: rest => stripFence rest
  | c :: rest => c :: stripFence rest
  | [] => []

/-- Both fence-stripping passes, in source order. -/
def cleanFences (text : String) : List Char :=
  stripFence (stripFenceJson text.data)

/-- Index of the last closing square bracket, or `-1` when there is none
(JavaScript `lastIndexOf`). -/
def lastIndexOfRB (cs : List Char) : ℤ :=
  match cs.reverse.findIdx? (fun c => c = ']') with
  | none => -1
  | some j => (cs.length : ℤ) - 1 - (j : ℤ)

/-- `safeExtractJson` (source `index.ts`, the identical copies at lines
368-391, 630-653 and 891-914): strip Markdown code fences, slice from the
first opening square bracket to one past the last closing one, parse, and
fail soft to the empty list on any parse error or when the parsed value is
not an array. -/
def safeExtractJson (text : String) : List Json :=
  match (cleanFences text).findIdx? (fun c => c = '[') with
  | none => []
  | some start =>
    match parseJson (String.mk (((cleanFences text).drop start).take
        ((lastIndexOfRB (cleanFences text) + 1 - (start : ℤ)).toNat))) with
    | some (.arr elems) => elems
    | some _ => []
    | none => []

/-! ## Field-name constants used by the normalizers -/

def kName : String := "name"
def kTitle : String := "title"
def kPosition : String := "position"
def kCompany : String := "company"
def kOrganization : String := "organization"
def kLocation : String := "location"
def kCity : String := "city"
def kProfileUrl : String := "profile_url"
def kLinkedinUrl : String := "linkedin_url"
def kUrl : String := "url"
def kRelevanceScore : String := "relevance_score"
def kScore : String := "score"
def kRating : String := "rating"

/-- A normalized lead as produced by `normalizeLead` (Perplexity variant,
`index.ts` lines 304-311): the raw JSON field values selected by the alias
chains, with the coerced numeric score. -/
structure NormLead where
  name : Json
  title : Json
  company : Json
  location : Json
  profile_url : Json
  relevance_score : JsNum

/-- The score coercion of `normalizeLead`:
`Math.max(0, Math.min(100, Math.round(x || y || z || 0)))`. -/
def coerceScore (a b c : Option Json) : JsNum :=
  jsMax (.num 0) (jsMin (.num 100) (jsRound (toNumberJ (orDefault (jsOr (jsOr a b) c) (.num 0)))))

/-- `normalizeLead` (`index.ts` lines 393-408): reject a record whose raw
`name` or `company` is falsy, otherwise coerce each field through its alias
chain with defaults. -/
def normalizeLead (lead : Json) : Option NormLead :=
  if ¬ truthy (jsonField lead kName) ∨ ¬ truthy (jsonField lead kCompany) then none
  else some
    { name := orDefault (jsonField lead kName) (.str (""))
      title := orDefault (jsOr (jsonField lead kTitle) (jsonField lead kPosition)) (.str (""))
      company := orDefault (jsOr (jsonField lead kCompany) (jsonField lead kOrganization)) (.str (""))
      location := orDefault (jsOr (jsonField lead kLocation) (jsonField lead kCity)) (.str (""))
      profile_url :=
        orDefault
          (jsOr (jsOr (jsonField lead kProfileUrl) (jsonField lead kLinkedinUrl)) (jsonField lead kUrl))
          (.str (""))
      relevance_score :=
        coerceScore (jsonField lead kRelevanceScore) (jsonField lead kScore) (jsonField lead kRating) }

/-- `normalizeLeads` (`index.ts` lines 410-412): map then drop rejected
records. -/
def normalizeLeads (leads : List Json) : List NormLead :=
  leads.filterMap normalizeLead

/-- `String.prototype.toLowerCase`, modelled as the character-wise lower
casing of the string. -/
def jsToLower (s : String) : String :=
  String.mk (s.data.map Char.toLower)

/-! ## JavaScript `Map` model: association list with in-place update -/

/-- `Map.prototype.set`: update an existing key in place (its insertion
position is kept), otherwise append at the end. -/
def mapSet {α : Type} : List (String × α) → String → α → List (String × α)
  | [], k, v => [(k, v)]
  | (k', v') :: rest, k, v =>
    if k' = k then (k, v) :: rest else (k', v') :: mapSet rest k v

/-- `Map.prototype.get` (with `has` as definedness). -/
def mapGet? {α : Type} : List (String × α) → String → Option α
  | [], _ => none
  | (k', v') :: rest, k => if k' = k then some v' else mapGet? rest k

/-- One pass of the shared keep-highest-score dedup loop: keep the
newcomer only when its score is strictly greater than the stored one
under the same key, so the first-seen record wins exact ties. -/
def dedupeStep {α : Type} (key : α → String) (score : α → ℤ)
    (m : List (String × α)) (l : α) : List (String × α) :=
  match mapGet? m (key l) with
  | none => mapSet m (key l) l
  | some existing => if score existing < score l then mapSet m (key l) l else m

/-- The shared shape of `dedupeLeads`/`deduplicateLeadsByUrl`: fold the
input through a `Map` keyed by `key`, then take `Array.from(map.values())`. -/
def dedupeByKey {α : Type} (key : α → String) (score : α → ℤ) (items : List α) : List α :=
  (items.foldl (dedupeStep key score) []).map Prod.snd

/-- The terminal `Lead` record shape of the Perplexity variants
(`index.ts` lines 304-311 and 557-564), with `relevance_score` an integer
per the data-model invariant. -/
structure Lead where
  name : String
  title : String
  company : String
  location : String
  profile_url : String
  relevance_score : ℤ
deriving DecidableEq, Repr

/-- The identity key of `dedupeLeads`:
a lowercased name-dash-company composite.  The two source spellings
(lowercase the whole template at lines 414-423, lowercase each part at
lines 1003-1013) agree on string fields since `toLowerCase` distributes
over concatenation. -/
def leadKey (l : Lead) : String :=
  jsToLower (l.name ++ "-" ++ l.company)

/-- `dedupeLeads` (`index.ts` lines 414-423 and 1003-1013): one record
per case-insensitive name/company key, keeping the strictly higher score,
first seen wins ties. -/
def dedupeLeads (leads : List Lead) : List Lead :=
  dedupeByKey leadKey Lead.relevance_score leads

/-- The SerpAPI variant's `Lead` record (`index.ts` lines 5-13). -/
structure LeadV1 where
  name : String
  title : String
  company_name : String
  email : Option String
  linkedin_url : String
  location : String
  relevance_score : ℤ
deriving DecidableEq, Repr

/-- `deduplicateLeadsByUrl` (`index.ts` lines 167-178): the same keyed
dedup loop with the LinkedIn URL as identity key. -/
def deduplicateLeadsByUrl (leads : List LeadV1) : List LeadV1 :=
  dedupeByKey LeadV1.linkedin_url LeadV1.relevance_score leads

/-! ## Ranker/Limiter -/

/-- The comparator-induced order of `sort((a, b) => b.relevance_score -
a.relevance_score)`: `a` may stay before `b` exactly when the comparator
is non-positive. -/
def scoreDescLe (a b : Lead) : Bool :=
  decide (b.relevance_score ≤ a.relevance_score)

/-- The stable descending sort by score used before truncation
(`index.ts` lines 504 and 1090). -/
def sortLeadsByScoreDesc (leads : List Lead) : List Lead :=
  leads.mergeSort scoreDescLe

/-- Ranker/Limiter (`index.ts` lines 503-506 and 244-245): stable sort by
score descending, then `slice(0, limit)`. -/
def rankAndLimit (leads : List Lead) (limit : ℕ) : List Lead :=
  (sortLeadsByScoreDesc leads).take limit

/-! ## Company listing variant (two-phase company discovery) -/

/-- The `Company` record of the company-listing variant (`index.ts` lines
566-573). -/
structure Company where
  company_name : String
  industry : String
  headquarters_location : String
  careers_page_url : String
  linkedin_company_url : String
  example_role_titles : List String
deriving DecidableEq, Repr

/-- `dedupeCompanies` (`index.ts` lines 677-686): first record wins per
case-insensitive company name. -/
def dedupeCompanies (companies : List Company) : List Company :=
  (companies.foldl
    (fun m c =>
      match mapGet? m (jsToLower c.company_name) with
      | none => mapSet m (jsToLower c.company_name) c
      | some _ => m)
    []).map Prod.snd

/-- `companiesToLeads` (`index.ts` lines 688-697): position-based score
`100 - index`. -/
def companiesToLeads (companies : List Company) : List Lead :=
  companies.enum.map
    (fun p =>
      { name := p.2.company_name
        title := match p.2.example_role_titles.head? with
          | some t => if t = "" then ("Multiple Roles") else t
          | none => "Multiple Roles"
        company := p.2.company_name
        location := p.2.headquarters_location
        profile_url :=
          if p.2.linkedin_company_url = "" then p.2.careers_page_url else p.2.linkedin_company_url
        relevance_score := 100 - (p.1 : ℤ) })

/-- The name order of `sort((a, b) => a.company_name.localeCompare(b.company_name))`,
with `localeCompare` modelled as code-point order. -/
def companyNameLe (a b : Company) : Bool :=
  decide (a.company_name ≤ b.company_name)

/-- The pure tail of the company-listing `generateLeads` (`index.ts` lines
748-768): dedupe the discovered companies, sort by name, truncate to the
limit, convert to leads. -/
def phase3Leads (companies : List Company) (limit : ℕ) : List Lead :=
  companiesToLeads (((dedupeCompanies companies).mergeSort companyNameLe).take limit)

/-! ## SerpAPI variant orchestrator (variant 1) -/

/-- A raw SerpAPI organic result (`index.ts` lines 15-19). -/
structure SerpApiResult where
  title : String
  link : String
  snippet : String
deriving DecidableEq, Repr

/-- `callSerpAPI` (`index.ts` lines 93-124): throw when the `SERPAPI_KEY`
secret is absent, otherwise one fetch modelled by the oracle. -/
def callSerpAPI (serpKey : Option String)
    (fetchOracle : String → Except String (List SerpApiResult))
    (query : String) : Except String (List SerpApiResult) :=
  match serpKey with
  | none => .error ("Missing SERPAPI_KEY secret")
  | some _ => fetchOracle query

/-- The query loop of the SerpAPI `generateLeads` (`index.ts` lines
212-232): per-query try/catch that skips failures, accumulation, and the
early break once twice the limit is collected.  The regex-based
`mapSerpResultToLead` is passed as a parameter. -/
def v1Collect (serpKey : Option String)
    (fetchOracle : String → Except String (List SerpApiResult))
    (mapResult : SerpApiResult → Option LeadV1)
    (limit : ℕ) : List String → List LeadV1 → List LeadV1
  | [], acc => acc
  | q :: qs, acc =>
    match callSerpAPI serpKey fetchOracle q with
    | .error _ => v1Collect serpKey fetchOracle mapResult limit qs acc
    | .ok results =>
      let acc2 := acc ++ results.filterMap mapResult
      if limit * 2 ≤ acc2.length then acc2
      else v1Collect serpKey fetchOracle mapResult limit qs acc2

/-- Order induced by `sort((a, b) => b.relevance_score - a.relevance_score)`
on the SerpAPI lead shape. -/
def scoreDescLeV1 (a b : LeadV1) : Bool :=
  decide (b.relevance_score ≤ a.relevance_score)

/-- The SerpAPI `generateLeads` (`index.ts` lines 180-249) after query
construction: collect per query (skipping failed calls), return the empty
list when nothing was found, else dedupe by URL, sort by score descending
and truncate.  A missing key never escapes this function: each per-query
throw is caught and skipped. -/
def generateLeadsV1 (serpKey : Option String)
    (fetchOracle : String → Except String (List SerpApiResult))
    (mapResult : SerpApiResult → Option LeadV1)
    (queries : List String) (limit : ℕ) : List LeadV1 :=
  let allLeads := v1Collect serpKey fetchOracle mapResult limit queries []
  if allLeads.isEmpty then []
  else ((deduplicateLeadsByUrl allLeads).mergeSort scoreDescLeV1).take limit

/-! ## Perplexity two-phase variant orchestrator (variant 2) -/

/-- Identity key of the normalized-lead dedup at `index.ts` lines 414-423,
on raw JSON field values: the template literal stringifies each field. -/
def normLeadKey (l : NormLead) : String :=
  jsToLower (jsToString l.name ++ "-" ++ jsToString l.company)

/-- Strict `>` on JavaScript numbers (false whenever either side is NaN). -/
def jsGt : JsNum → JsNum → Bool
  | .num p, .num q => decide (q < p)
  | _, _ => false

/-- `dedupeLeads` at the raw normalized-record type (`index.ts` lines
414-423). -/
def dedupeNormLeads (leads : List NormLead) : List NormLead :=
  (leads.foldl
    (fun m l =>
      match mapGet? m (normLeadKey l) with
      | none => mapSet m (normLeadKey l) l
      | some existing =>
        if jsGt l.relevance_score existing.relevance_score then mapSet m (normLeadKey l) l else m)
    []).map Prod.snd

/-- Comparator order of `sort((a, b) => b.relevance_score -
a.relevance_score)` on possibly-NaN scores; ECMAScript treats a NaN
comparator result as zero. -/
def normScoreDescLe (a b : NormLead) : Bool :=
  match jsSub b.relevance_score a.relevance_score with
  | .nan => true
  | .num q => decide (q ≤ 0)

/-- The seven phase-1 query variations of the Perplexity search variant
(`index.ts` lines 431-439). -/
def searchQueries (jobDescription : String) : List String :=
  [ "List 25 hiring managers relevant to: " ++ jobDescription
  , "Decision makers hiring for: " ++ jobDescription
  , "Leads in companies hiring for: " ++ jobDescription
  , jobDescription ++ " recruitment leads"
  , "Who is hiring for: " ++ jobDescription
  , "Hiring managers at companies needing: " ++ jobDescription
  , jobDescription ++ " contacts in United States" ]

/-- The Perplexity `generateLeads` (`index.ts` lines 425-512): throw at
once when the `PERPLEXITY_API_KEY` secret is absent; otherwise run the
seven phase-1 queries (each failure caught and skipped), concatenate the
raw texts, and structure, extract, normalize, dedupe, sort and truncate.
The two oracles model the phase-1 and phase-2 Perplexity calls (returning
the assistant content, with the `|| ""` fallback applied). -/
def generateLeadsV2 (perplexityKey : Option String)
    (phase1 : String → Except String String)
    (phase2 : String → Except String String)
    (jobDescription : String) (limit : ℕ) : Except String (List NormLead) :=
  match perplexityKey with
  | none => .error ("Missing PERPLEXITY_API_KEY secret")
  | some _ =>
    let combinedRawText :=
      (searchQueries jobDescription).foldl
        (fun acc q =>
          match phase1 q with
          | .error _ => acc
          | .ok rawText => acc ++ "\n\n--- Results for: " ++ q ++ " ---\n" ++ rawText)
        ""
    if combinedRawText.trim = "" then .ok []
    else
      match phase2 combinedRawText with
      | .error _ => .ok []
      | .ok structuredText =>
        let leads := safeExtractJson structuredText
        if leads.length = 0 then .ok []
        else .ok (((dedupeNormLeads (normalizeLeads leads)).mergeSort normScoreDescLe).take limit)

/-! ## Request-boundary limit handling -/

/-- The effective target of the three non-streaming variants
(`index.ts` lines 274, 537 and 794):
`Math.max(10, Math.min(Number(limit || 200), 500))`; a missing (or falsy,
hence zero) `limit` falls back to 200. -/
def clampTarget (limit : Option ℚ) : ℚ :=
  max 10 (min (match limit with
    | some q => if q = 0 then 200 else q
    | none => 200) 500)

/-- The effective lead count of the streaming variant (`part_000` line
264): the destructuring default applies when the field is absent, and no
clamping is performed. -/
def streamLeadCount (leadCount : Option ℚ) : ℚ :=
  leadCount.getD 200

/-! ## Streaming variant (SerpAPI + Hunter.io, `part_000`) -/

/-- The streaming variant's `Lead` record (`part_000` lines 4-11). -/
structure StreamLead where
  name : String
  title : String
  email : String
  confidence : ℤ
  company : String
  source : String
deriving DecidableEq, Repr

/-- A raw Hunter.io contact (`part_000` lines 19-25); absent string
fields are modelled as the empty string (the falsy case). -/
structure HunterContact where
  first_name : String
  last_name : String
  email : String
  position : String
  confidence : ℤ
deriving DecidableEq, Repr

/-- `EnrichmentService.findContactsAtCompany` (`part_000` lines 117-168):
with no `HUNTER_KEY` it logs and returns the empty list (skipping
enrichment); an upstream failure is caught and yields the empty list;
otherwise contacts with a truthy email are converted. -/
def findContactsAtCompany (hunterKey : Option String)
    (hunterOracle : String → Except String (List HunterContact))
    (domain : String) : List StreamLead :=
  match hunterKey with
  | none => []
  | some _ =>
    match hunterOracle domain with
    | .error _ => []
    | .ok contacts =>
      contacts.filterMap
        (fun c =>
          if c.email = "" then none
          else some
            { name := if (c.first_name ++ " " ++ c.last_name).trim = "" then ("Unknown")
                else (c.first_name ++ " " ++ c.last_name).trim
              title := if c.position = "" then ("Unknown Position") else c.position
              email := c.email
              confidence := c.confidence
              company := domain
              source := "Hunter.io" })

/-- One server-sent event of the streaming response, including the final
literal terminator line. -/
inductive StreamEvent where
  | lead (l : StreamLead)
  | domain (d : String)
  | progress (value : ℤ)
  | complete (message : String)
  | error (message : String)
  | done
deriving DecidableEq, Repr

/-- The mutable per-run state of `AggregationService` (`part_000` lines
172-174): the email dedup set (as the list of seen emails) and the
accumulated leads. -/
structure AggState where
  emails : List String
  allLeads : List StreamLead
deriving DecidableEq, Repr

/-- The inner contact loop (`part_000` lines 213-225): accept a contact
when its email is unseen and the accumulator is below `leadCount`; each
accepted contact emits a `lead` event followed by a `progress` event. -/
def processContacts (leadCount : ℕ) (progressVal : ℤ) :
    List StreamLead → AggState → AggState × List StreamEvent
  | [], st => (st, [])
  | c :: cs, st =>
    if c.email ∉ st.emails ∧ st.allLeads.length < leadCount then
      ((processContacts leadCount progressVal cs
          ⟨st.emails ++ [c.email], st.allLeads ++ [c]⟩).1,
        .lead c :: .progress progressVal ::
          (processContacts leadCount progressVal cs
            ⟨st.emails ++ [c.email], st.allLeads ++ [c]⟩).2)
    else processContacts leadCount progressVal cs st

/-- The outer domain loop (`part_000` lines 205-238): break once the
accumulator reached `leadCount`, enrich each domain (failures caught),
and compute the phase-2 progress percentage from the processed count. -/
def processDomains (hunterKey : Option String)
    (hunterOracle : String → Except String (List HunterContact))
    (leadCount totalDomains : ℕ) :
    List String → ℕ → AggState → AggState × List StreamEvent
  | [], _, st => (st, [])
  | d :: ds, processed, st =>
    if leadCount ≤ st.allLeads.length then (st, [])
    else
      ((processDomains hunterKey hunterOracle leadCount totalDomains ds (processed + 1)
          (processContacts leadCount (20 + ((processed * 70) / totalDomains : ℕ))
            (findContactsAtCompany hunterKey hunterOracle d) st).1).1,
        (processContacts leadCount (20 + ((processed * 70) / totalDomains : ℕ))
          (findContactsAtCompany hunterKey hunterOracle d) st).2 ++
        (processDomains hunterKey hunterOracle leadCount totalDomains ds (processed + 1)
          (processContacts leadCount (20 + ((processed * 70) / totalDomains : ℕ))
            (findContactsAtCompany hunterKey hunterOracle d) st).1).2)

/-- Order induced by the final `sort((a, b) => b.confidence - a.confidence)`
(`part_000` line 241). -/
def confDescLe (a b : StreamLead) : Bool :=
  decide (b.confidence ≤ a.confidence)

/-- `AggregationService.generateLeadsWithStreaming` (`part_000` lines
176-247), with the discovered domains supplied as a parameter (the
search service catches its own failures and returns a plain list): the
emitted event sequence and the outcome.  Zero domains throws the
no-companies error; otherwise each domain is streamed, phase 2 runs, and
the sorted truncated list is returned. -/
def generateLeadsWithStreaming (hunterKey : Option String)
    (hunterOracle : String → Except String (List HunterContact))
    (domains : List String) (leadCount : ℕ) :
    List StreamEvent × Except String (List StreamLead) :=
  if domains.isEmpty then
    ([.progress 10], .error ("No companies found. Try a broader job title or remove location filter."))
  else
    let domainEvents := domains.flatMap (fun d => [StreamEvent.domain d, .progress 15])
    let phase2 := processDomains hunterKey hunterOracle leadCount domains.length domains 0 ⟨[], []⟩
    ([StreamEvent.progress 10] ++ domainEvents ++ [.progress 20] ++ phase2.2 ++ [.progress 100],
      .ok (((phase2.1.allLeads).mergeSort confDescLe).take leadCount))

/-- The streaming request handler's event stream (`part_000` lines
283-317): on success append a `complete` event then the `[DONE]`
terminator; on a thrown error append an `error` event then the same
terminator. -/
def streamResponse (hunterKey : Option String)
    (hunterOracle : String → Except String (List HunterContact))
    (domains : List String) (leadCount : ℕ) : List StreamEvent :=
  match generateLeadsWithStreaming hunterKey hunterOracle domains leadCount with
  | (events, .ok _) => events ++ [.complete ("Lead generation completed"), .done]
  | (events, .error msg) => events ++ [.error msg, .done]

/-- The lead events of an event sequence, in emission order. -/
def leadEvents (events : List StreamEvent) : List StreamLead :=
  events.filterMap (fun e => match e with | .lead l => some l | _ => none)

/-! ## Concrete inputs used by counterexamples and witnesses -/

/-- A raw record with truthy identity fields and the non-numeric string
score whose coercion the specification describes. -/
def abcScoreLead : Json :=
  .obj [(kName, Json.str ("Jane")), (kCompany, Json.str ("Acme")), (kRelevanceScore, Json.str ("abc"))]

/-- Raw records with numeric, fractional, out-of-range and missing scores. -/
def rawLeadWithScore (v : Json) : Json :=
  .obj [(kName, Json.str ("Jane")), (kCompany, Json.str ("Acme")), (kRelevanceScore, v)]

/-- A raw record without any score field. -/
def rawLeadNoScore : Json :=
  .obj [(kName, Json.str ("Jane")), (kCompany, Json.str ("Acme"))]

/-- 102 companies with pairwise distinct names unaffected by
lowercasing, enough to drive the position-based score negative. -/
def manyCompanies : List Company :=
  (List.range 102).map
    (fun i =>
      { company_name := String.mk [Char.ofNat (1000 + i)]
        industry := ""
        headquarters_location := ""
        careers_page_url := ""
        linkedin_company_url := ""
        example_role_titles := ["Engineer"] })

/-- The specification's Markdown-fenced extraction example. -/
def exampleFenceText : String :=
  "Here are leads:\n\x60\x60\x60json\n[\x7b\"name\":\"A\",\"company\":\"B\"\x7d]\n\x60\x60\x60\nThanks"

/-- Prefix of the cleaned example before the first opening bracket. -/
def examplePre : List Char := "Here are leads:\n".data

/-- Characters of the cleaned example strictly between the outer brackets. -/
def exampleMid : List Char := "\x7b\"name\":\"A\",\"company\":\"B\"\x7d".data

/-- Suffix of the cleaned example after the last closing bracket. -/
def examplePost : List Char := "\nThanks".data

/-- A SerpAPI oracle that answers every query with one LinkedIn result,
showing upstream data was available to a run. -/
def demoSerpOracle : String → Except String (List SerpApiResult) :=
  fun _ => .ok [{ title := "Jane Doe - LinkedIn", link := "https://linkedin.com/in/janedoe", snippet := "Hiring Manager at Acme" }]

/-- The mapping the regex-based `mapSerpResultToLead` performs on the demo
result above, supplied for the parameterized collector. -/
def demoMapResult : SerpApiResult → Option LeadV1 :=
  fun r =>
    some
      { name := "Jane Doe"
        title := "Hiring Manager"
        company_name := "Acme"
        email := none
        linkedin_url := r.link
        location := ""
        relevance_score := 85 }

/-- A Hunter.io oracle that answers every domain with one contact,
showing enrichment data was available to a run. -/
def demoHunterOracle : String → Except String (List HunterContact) :=
  fun _ =>
    .ok [{ first_name := "Jane", last_name := "Doe", email := "jane@acme.com", position := "CTO", confidence := 90 }]

/-- Two demo search queries for the SerpAPI collector. -/
def demoQueries : List String := ["query one", "query two"]

/-- Demo leads sharing one identity key with distinct scores. -/
def demoLeadLow : Lead :=
  { name := "Jane Doe", title := "", company := "Acme", location := "", profile_url := "", relevance_score := 70 }

/-- The higher-scoring duplicate of `demoLeadLow` under the same key. -/
def demoLeadHigh : Lead :=
  { name := "JANE DOE", title := "", company := "acme", location := "", profile_url := "", relevance_score := 90 }

/-- A single discovered company for the witness of the company-listing
variant. -/
def soloCompany : Company :=
  { company_name := "Acme"
    industry := ""
    headquarters_location := ""
    careers_page_url := ""
    linkedin_company_url := ""
    example_role_titles := ["Engineer"] }

/-- The lead produced for `soloCompany` at position 0. -/
def soloLead : Lead :=
  { name := "Acme", title := "Engineer", company := "Acme", location := "", profile_url := "",
    relevance_score := 100 }

/-! ## The dedup-loop invariant -/

/-- Invariant of the keyed dedup fold: keys are distinct; every stored
record sits under its own key; every stored record occurs in the
processed prefix with all earlier same-key records strictly smaller;
every stored record dominates all processed same-key records; and every
processed record has an entry under its key. -/
def DedupInv {α : Type} (key : α → String) (score : α → ℤ)
    (processed : List α) (m : List (String × α)) : Prop :=
  (m.map Prod.fst).Nodup ∧
  (∀ p ∈ m, key p.2 = p.1) ∧
  (∀ p ∈ m, ∃ pre post, processed = pre ++ p.2 :: post ∧
    ∀ l ∈ pre, key l = p.1 → score l < score p.2) ∧
  (∀ p ∈ m, ∀ l ∈ processed, key l = p.1 → score l ≤ score p.2) ∧
  (∀ l ∈ processed, ∃ v, mapGet? m (key l) = some v)


/-! ## Lemmas about the `Map` model -/

theorem mapGet?_eq_none_iff {α : Type} (m : List (String × α)) (k : String) :
    mapGet? m k = none ↔ k ∉ m.map Prod.fst := by
  induction m with
  | nil => simp [mapGet?]
  | cons p rest ih =>
    obtain ⟨k', v'⟩ := p
    by_cases h : k' = k
    · subst h
      simp [mapGet?]
    · have hne : k ≠ k' := Ne.symm h
      simp only [mapGet?, if_neg h, List.map_cons, List.mem_cons, ih]
      simp [hne]

theorem mapGet?_mem {α : Type} {m : List (String × α)} {k : String} {v : α}
    (h : mapGet? m k = some v) : (k, v) ∈ m := by
  induction m with
  | nil => simp [mapGet?] at h
  | cons p rest ih =>
    obtain ⟨k', v'⟩ := p
    by_cases hk : k' = k
    · subst hk
      simp [mapGet?] at h
      simp [h]
    · simp [mapGet?, hk] at h
      exact List.mem_cons_of_mem _ (ih h)

theorem mapSet_of_not_mem {α : Type} {m : List (String × α)} {k : String} (v : α)
    (h : k ∉ m.map Prod.fst) : mapSet m k v = m ++ [(k, v)] := by
  induction m with
  | nil => simp [mapSet]
  | cons p rest ih =>
    obtain ⟨k', v'⟩ := p
    simp only [List.map_cons, List.mem_cons] at h
    push_neg at h
    simp [mapSet, Ne.symm h.1, ih h.2]

theorem map_fst_mapSet_of_mem {α : Type} {m : List (String × α)} {k : String} (v : α)
    (h : k ∈ m.map Prod.fst) : (mapSet m k v).map Prod.fst = m.map Prod.fst := by
  induction m with
  | nil => simp at h
  | cons p rest ih =>
    obtain ⟨k', v'⟩ := p
    by_cases hk : k' = k
    · simp [mapSet, hk]
    · simp only [List.map_cons, List.mem_cons] at h
      rcases h with h | h
      · exact absurd h.symm hk
      · simp [mapSet, hk, ih h]

theorem mem_mapSet {α : Type} {m : List (String × α)} {k : String} {v : α}
    (hnd : (m.map Prod.fst).Nodup) (p : String × α) :
    p ∈ mapSet m k v ↔ p = (k, v) ∨ (p ∈ m ∧ p.1 ≠ k) := by
  induction m with
  | nil =>
    simp only [mapSet, List.mem_singleton, List.not_mem_nil, false_and, or_false]
  | cons q rest ih =>
    obtain ⟨k', v'⟩ := q
    simp only [List.map_cons, List.nodup_cons] at hnd
    by_cases hk : k' = k
    · subst hk
      rw [show mapSet ((k', v') :: rest) k' v = (k', v) :: rest from by simp [mapSet]]
      constructor
      · intro hmem
        rcases List.mem_cons.mp hmem with heq | htail
        · exact Or.inl heq
        · refine Or.inr ⟨List.mem_cons_of_mem _ htail, ?_⟩
          intro hcontra
          exact hnd.1 (hcontra ▸ List.mem_map_of_mem Prod.fst htail)
      · intro hmem
        rcases hmem with heq | ⟨hin, hne⟩
        · exact heq ▸ List.mem_cons_self _ _
        · rcases List.mem_cons.mp hin with heq | htail
          · exact absurd (congrArg Prod.fst heq) (by simpa using hne)
          · exact List.mem_cons_of_mem _ htail
    · rw [show mapSet ((k', v') :: rest) k v = (k', v') :: mapSet rest k v from by simp [mapSet, hk]]
      constructor
      · intro hmem
        rcases List.mem_cons.mp hmem with heq | htail
        · refine Or.inr ⟨?_, ?_⟩
          · exact heq ▸ List.mem_cons_self _ _
          · rw [heq]
            exact hk
        · rcases (ih hnd.2).mp htail with heq | ⟨hin, hne⟩
          · exact Or.inl heq
          · exact Or.inr ⟨List.mem_cons_of_mem _ hin, hne⟩
      · intro hmem
        rcases hmem with heq | ⟨hin, hne⟩
        · exact List.mem_cons_of_mem _ ((ih hnd.2).mpr (Or.inl heq))
        · rcases List.mem_cons.mp hin with heq | htail
          · exact heq ▸ List.mem_cons_self _ _
          · exact List.mem_cons_of_mem _ ((ih hnd.2).mpr (Or.inr ⟨htail, hne⟩))

theorem mapGet?_mapSet_self {α : Type} (m : List (String × α)) (k : String) (v : α) :
    mapGet? (mapSet m k v) k = some v := by
  induction m with
  | nil => simp [mapSet, mapGet?]
  | cons p rest ih =>
    obtain ⟨k', v'⟩ := p
    by_cases hk : k' = k <;> simp [mapSet, mapGet?, hk, ih]

theorem mapGet?_mapSet_ne {α : Type} (m : List (String × α)) {k k' : String} (v : α)
    (h : k' ≠ k) : mapGet? (mapSet m k v) k' = mapGet? m k' := by
  induction m with
  | nil => simp [mapSet, mapGet?, Ne.symm h]
  | cons p rest ih =>
    obtain ⟨k'', v''⟩ := p
    by_cases hk : k'' = k
    · subst hk
      simp [mapSet, mapGet?, Ne.symm h]
    · by_cases hk' : k'' = k'
      · subst hk'
        simp [mapSet, mapGet?, hk]
      · simp [mapSet, mapGet?, hk, hk', ih]

theorem mapGet?_of_mem_nodup {α : Type} {m : List (String × α)} {k : String} {v : α}
    (hnd : (m.map Prod.fst).Nodup) (h : (k, v) ∈ m) : mapGet? m k = some v := by
  induction m with
  | nil => simp at h
  | cons p rest ih =>
    obtain ⟨k', v'⟩ := p
    simp only [List.map_cons, List.nodup_cons] at hnd
    rcases List.mem_cons.mp h with h | h
    · obtain ⟨h1, h2⟩ := Prod.mk.injEq .. ▸ h.symm
      simp [mapGet?, h1, h2]
    · by_cases hk : k' = k
      · exact absurd (hk ▸ List.mem_map_of_mem Prod.fst h) hnd.1
      · simp [mapGet?, hk, ih hnd.2 h]

theorem dedupInv_nil {α : Type} (key : α → String) (score : α → ℤ) :
    DedupInv key score [] [] := by
  refine ⟨List.nodup_nil, ?_, ?_, ?_, ?_⟩ <;> simp

theorem mapGet?_append_of_some {α : Type} {m : List (String × α)} (m2 : List (String × α))
    {k : String} {v : α} (h : mapGet? m k = some v) : mapGet? (m ++ m2) k = some v := by
  induction m with
  | nil => simp [mapGet?] at h
  | cons p rest ih =>
    obtain ⟨k', v'⟩ := p
    by_cases hk : k' = k
    · simp [mapGet?, hk] at h ⊢
      exact h
    · simp [mapGet?, hk] at h ⊢
      exact ih h

theorem mapGet?_append_none {α : Type} {m : List (String × α)} (m2 : List (String × α))
    {k : String} (h : mapGet? m k = none) : mapGet? (m ++ m2) k = mapGet? m2 k := by
  induction m with
  | nil => simp
  | cons p rest ih =>
    obtain ⟨k', v'⟩ := p
    by_cases hk : k' = k
    · simp [mapGet?, hk] at h
    · simp [mapGet?, hk] at h ⊢
      exact ih h

theorem dedupInv_step {α : Type} {key : α → String} {score : α → ℤ}
    {processed : List α} {m : List (String × α)}
    (h : DedupInv key score processed m) (l : α) :
    DedupInv key score (processed ++ [l]) (dedupeStep key score m l) := by
  obtain ⟨hnd, hkey, hpos, hdom, hcov⟩ := h
  cases hget : mapGet? m (key l) with
  | none =>
    have hstep : dedupeStep key score m l = mapSet m (key l) l := by
      unfold dedupeStep
      rw [hget]
    have hnot : key l ∉ m.map Prod.fst := (mapGet?_eq_none_iff m (key l)).mp hget
    rw [hstep, mapSet_of_not_mem l hnot]
    have hnewmem : ∀ p : String × α, p ∈ m ++ [(key l, l)] → p ∈ m ∨ p = (key l, l) := by
      intro p hp
      rcases List.mem_append.mp hp with hp | hp
      · exact Or.inl hp
      · exact Or.inr (List.mem_singleton.mp hp)
    have hnokey : ∀ x ∈ processed, key x ≠ key l := by
      intro x hx hkx
      obtain ⟨w, hw⟩ := hcov x hx
      rw [hkx, hget] at hw
      exact Option.noConfusion hw
    refine ⟨?_, ?_, ?_, ?_, ?_⟩
    · rw [List.map_append]
      simp only [List.map_cons, List.map_nil]
      refine List.Nodup.append hnd (List.nodup_singleton _) ?_
      intro a ha hb
      rw [List.mem_singleton.mp hb] at ha
      exact hnot ha
    · intro p hp
      rcases hnewmem p hp with hp | hp
      · exact hkey p hp
      · simp [hp]
    · intro p hp
      rcases hnewmem p hp with hp | hp
      · obtain ⟨pre, post, hsplit, hless⟩ := hpos p hp
        exact ⟨pre, post ++ [l], by simp [hsplit], hless⟩
      · refine ⟨processed, [], by simp [hp], ?_⟩
        intro x hx hkx
        rw [hp] at hkx
        exact absurd hkx (hnokey x hx)
    · intro p hp x hx hkx
      rcases List.mem_append.mp hx with hx | hx
      · rcases hnewmem p hp with hpm | hpl
        · exact hdom p hpm x hx hkx
        · rw [hpl] at hkx
          exact absurd hkx (hnokey x hx)
      · rw [List.mem_singleton.mp hx] at hkx ⊢
        rcases hnewmem p hp with hpm | hpl
        · exfalso
          have hmem : p.1 ∈ m.map Prod.fst := List.mem_map_of_mem Prod.fst hpm
          rw [← hkx] at hmem
          exact hnot hmem
        · rw [hpl]
    · intro x hx
      rcases List.mem_append.mp hx with hx | hx
      · obtain ⟨w, hw⟩ := hcov x hx
        exact ⟨w, mapGet?_append_of_some [(key l, l)] hw⟩
      · rw [List.mem_singleton.mp hx]
        refine ⟨l, ?_⟩
        rw [mapGet?_append_none [(key l, l)] hget]
        simp [mapGet?]
  | some existing =>
    have hstep : dedupeStep key score m l =
        if score existing < score l then mapSet m (key l) l else m := by
      unfold dedupeStep
      rw [hget]
    have hmem_ex : (key l, existing) ∈ m := mapGet?_mem hget
    have hkey_in : key l ∈ m.map Prod.fst := List.mem_map_of_mem Prod.fst hmem_ex
    rw [hstep]
    by_cases hlt : score existing < score l
    · rw [if_pos hlt]
      have hmemiff := fun p => mem_mapSet (m := m) (k := key l) (v := l) hnd p
      refine ⟨?_, ?_, ?_, ?_, ?_⟩
      · rw [map_fst_mapSet_of_mem l hkey_in]
        exact hnd
      · intro p hp
        rcases (hmemiff p).mp hp with hp | ⟨hp, _⟩
        · simp [hp]
        · exact hkey p hp
      · intro p hp
        rcases (hmemiff p).mp hp with hp | ⟨hpm, hpne⟩
        · refine ⟨processed, [], by simp [hp], ?_⟩
          intro x hx hkx
          rw [hp] at hkx ⊢
          simp only at hkx ⊢
          exact lt_of_le_of_lt (hdom (key l, existing) hmem_ex x hx hkx) hlt
        · obtain ⟨pre, post, hsplit, hless⟩ := hpos p hpm
          exact ⟨pre, post ++ [l], by simp [hsplit], hless⟩
      · intro p hp x hx hkx
        rcases List.mem_append.mp hx with hx | hx
        · rcases (hmemiff p).mp hp with hpl | ⟨hpm, _⟩
          · rw [hpl] at hkx ⊢
            simp only at hkx ⊢
            exact le_of_lt (lt_of_le_of_lt (hdom (key l, existing) hmem_ex x hx hkx) hlt)
          · exact hdom p hpm x hx hkx
        · rw [List.mem_singleton.mp hx] at hkx ⊢
          rcases (hmemiff p).mp hp with hpl | ⟨hpm, hpne⟩
          · rw [hpl]
          · exact absurd hkx.symm hpne
      · intro x hx
        rcases List.mem_append.mp hx with hx | hx
        · by_cases hkx : key x = key l
          · exact ⟨l, by rw [hkx, mapGet?_mapSet_self]⟩
          · obtain ⟨w, hw⟩ := hcov x hx
            exact ⟨w, by rw [mapGet?_mapSet_ne m l hkx, hw]⟩
        · rw [List.mem_singleton.mp hx]
          exact ⟨l, mapGet?_mapSet_self m (key l) l⟩
    · rw [if_neg hlt]
      push_neg at hlt
      refine ⟨hnd, hkey, ?_, ?_, ?_⟩
      · intro p hp
        obtain ⟨pre, post, hsplit, hless⟩ := hpos p hp
        exact ⟨pre, post ++ [l], by simp [hsplit], hless⟩
      · intro p hp x hx hkx
        rcases List.mem_append.mp hx with hx | hx
        · exact hdom p hp x hx hkx
        · rw [List.mem_singleton.mp hx] at hkx ⊢
          have hp2 : (p.1, p.2) ∈ m := hp
          rw [← hkx] at hp2
          have hsome := mapGet?_of_mem_nodup hnd hp2
          rw [hget] at hsome
          have hex : existing = p.2 := Option.some.inj hsome
          rw [← hex]
          exact hlt
      · intro x hx
        rcases List.mem_append.mp hx with hx | hx
        · exact hcov x hx
        · rw [List.mem_singleton.mp hx]
          exact ⟨existing, hget⟩

theorem dedupInv_foldl {α : Type} (key : α → String) (score : α → ℤ) :
    ∀ (items processed : List α) (m : List (String × α)),
      DedupInv key score processed m →
      DedupInv key score (processed ++ items) (items.foldl (dedupeStep key score) m)
  | [], processed, m, h => by simpa using h
  | x :: xs, processed, m, h => by
    have hstep := dedupInv_step h x
    have hrec := dedupInv_foldl key score xs (processed ++ [x]) (dedupeStep key score m x) hstep
    simpa [List.append_assoc] using hrec

theorem dedupeByKey_correct {α : Type} (key : α → String) (score : α → ℤ) (items : List α) :
    ((dedupeByKey key score items).map key).Nodup ∧
    (∀ l ∈ items, ∃ o ∈ dedupeByKey key score items, key o = key l ∧ score l ≤ score o) ∧
    (∀ o ∈ dedupeByKey key score items, ∃ pre post, items = pre ++ o :: post ∧
      ∀ l ∈ pre, key l = key o → score l < score o) := by
  have hinv := dedupInv_foldl key score items [] [] (dedupInv_nil key score)
  rw [List.nil_append] at hinv
  obtain ⟨hnd, hkey, hpos, hdom, hcov⟩ := hinv
  refine ⟨?_, ?_, ?_⟩
  · unfold dedupeByKey
    rw [List.map_map]
    have hcongr : (items.foldl (dedupeStep key score) []).map (key ∘ Prod.snd) =
        (items.foldl (dedupeStep key score) []).map Prod.fst :=
      List.map_congr_left (fun p hp => hkey p hp)
    rw [hcongr]
    exact hnd
  · intro l hl
    obtain ⟨v, hv⟩ := hcov l hl
    have hmem : (key l, v) ∈ items.foldl (dedupeStep key score) [] := mapGet?_mem hv
    refine ⟨v, List.mem_map_of_mem Prod.snd hmem, ?_, ?_⟩
    · exact hkey (key l, v) hmem
    · exact hdom (key l, v) hmem l hl rfl
  · intro o ho
    obtain ⟨p, hp, hpo⟩ := List.mem_map.mp ho
    obtain ⟨pre, post, hsplit, hless⟩ := hpos p hp
    refine ⟨pre, post, by rw [← hpo]; exact hsplit, ?_⟩
    intro l hl hkl
    rw [← hpo] at hkl ⊢
    exact hless l hl (by rw [hkl, hkey p hp])

/-! ## Ranker lemmas -/

theorem scoreDescLe_trans : ∀ a b c : Lead,
    scoreDescLe a b = true → scoreDescLe b c = true → scoreDescLe a c = true := by
  intro a b c hab hbc
  simp only [scoreDescLe, decide_eq_true_eq] at hab hbc ⊢
  omega

theorem scoreDescLe_total : ∀ a b : Lead, (scoreDescLe a b || scoreDescLe b a) = true := by
  intro a b
  simp only [scoreDescLe, Bool.or_eq_true, decide_eq_true_eq]
  omega

/-! ## Claim theorems -/

/-- C1: for every input list, the deduplicators (`dedupeLeads` on the
case-insensitive name/company key, `deduplicateLeadsByUrl` on the contact
URL key) return at most one record per identity key, the surviving record
scores at least as high as every record sharing its key, and the kept
record is the first-seen among equal-score duplicates (every earlier
same-key record scores strictly lower). -/
theorem dedupe_one_record_per_key (leads : List Lead) (urlLeads : List LeadV1) :
    (((dedupeLeads leads).map leadKey).Nodup ∧
      (∀ l ∈ leads, ∃ o ∈ dedupeLeads leads,
        leadKey o = leadKey l ∧ l.relevance_score ≤ o.relevance_score) ∧
      (∀ o ∈ dedupeLeads leads, ∃ pre post, leads = pre ++ o :: post ∧
        ∀ l ∈ pre, leadKey l = leadKey o → l.relevance_score < o.relevance_score)) ∧
    (((deduplicateLeadsByUrl urlLeads).map LeadV1.linkedin_url).Nodup ∧
      (∀ l ∈ urlLeads, ∃ o ∈ deduplicateLeadsByUrl urlLeads,
        o.linkedin_url = l.linkedin_url ∧ l.relevance_score ≤ o.relevance_score) ∧
      (∀ o ∈ deduplicateLeadsByUrl urlLeads, ∃ pre post, urlLeads = pre ++ o :: post ∧
        ∀ l ∈ pre, l.linkedin_url = o.linkedin_url → l.relevance_score < o.relevance_score)) :=
  ⟨dedupeByKey_correct leadKey Lead.relevance_score leads,
    dedupeByKey_correct LeadV1.linkedin_url LeadV1.relevance_score urlLeads⟩

/-- Witness for C1 at the specification's end-to-end duplicate example:
the two same-key records of Jane Doe at Acme dedupe to distinct keys
(here, to a single record). -/
theorem dedupe_one_record_per_key_witness :
    ((dedupeLeads [demoLeadLow, demoLeadHigh]).map leadKey).Nodup :=
  (dedupe_one_record_per_key [demoLeadLow, demoLeadHigh] []).1.1

/-- C4: the Ranker/Limiter output has length at most
`min limit (input length)`, is sorted non-increasingly by score, and the
underlying sort is stable (records of any fixed score keep their original
relative order). -/
theorem rankAndLimit_correct (leads : List Lead) (limit : ℕ) :
    (rankAndLimit leads limit).length ≤ min limit leads.length ∧
    List.Pairwise (fun a b => b.relevance_score ≤ a.relevance_score) (rankAndLimit leads limit) ∧
    (∀ s : ℤ, (sortLeadsByScoreDesc leads).filter (fun l => decide (l.relevance_score = s)) =
      leads.filter (fun l => decide (l.relevance_score = s))) := by
  refine ⟨?_, ?_, ?_⟩
  · apply le_of_eq
    simp [rankAndLimit, sortLeadsByScoreDesc, List.length_take, List.length_mergeSort]
  · have hsorted := List.sorted_mergeSort scoreDescLe_trans scoreDescLe_total leads
    have htake : (rankAndLimit leads limit).Sublist (leads.mergeSort scoreDescLe) := by
      unfold rankAndLimit sortLeadsByScoreDesc
      exact List.take_sublist limit _
    have hpair := List.Pairwise.sublist htake hsorted
    exact hpair.imp (fun h => by simpa [scoreDescLe] using h)
  · intro s
    have hperm := (List.mergeSort_perm leads scoreDescLe).filter
      (fun l => decide (l.relevance_score = s))
    have hApair : (leads.filter (fun l => decide (l.relevance_score = s))).Pairwise
        (fun a b => scoreDescLe a b = true) := by
      apply List.pairwise_of_forall_mem_list
      intro a ha b hb
      have ha2 := (List.mem_filter.mp ha).2
      have hb2 := (List.mem_filter.mp hb).2
      simp only [decide_eq_true_eq] at ha2 hb2
      simp [scoreDescLe, ha2, hb2]
    have hAsub : (leads.filter (fun l => decide (l.relevance_score = s))).Sublist
        (leads.mergeSort scoreDescLe) :=
      List.sublist_mergeSort scoreDescLe_trans scoreDescLe_total hApair
        (List.filter_sublist leads)
    have hAself : (leads.filter (fun l => decide (l.relevance_score = s))).filter
        (fun l => decide (l.relevance_score = s)) =
        leads.filter (fun l => decide (l.relevance_score = s)) := by
      rw [List.filter_eq_self]
      intro a ha
      exact (List.mem_filter.mp ha).2
    have hsub2 := List.Sublist.filter (fun l => decide (l.relevance_score = s)) hAsub
    rw [hAself] at hsub2
    have hlen : (leads.filter (fun l => decide (l.relevance_score = s))).length =
        ((leads.mergeSort scoreDescLe).filter (fun l => decide (l.relevance_score = s))).length :=
      (hperm.length_eq).symm
    unfold sortLeadsByScoreDesc
    exact (hsub2.eq_of_length hlen).symm

/-- Witness for C4 at a concrete two-element list and limit 1. -/
theorem rankAndLimit_correct_witness :
    (rankAndLimit [demoLeadLow, demoLeadHigh] 1).length ≤ min 1 2 :=
  (rankAndLimit_correct [demoLeadLow, demoLeadHigh] 1).1


/-! ## Normalizer lemmas -/

theorem coerceScore_int_or_nan (a b c : Option Json) :
    (∃ n : ℤ, coerceScore a b c = .num (n : ℚ) ∧ 0 ≤ n ∧ n ≤ 100) ∨
      coerceScore a b c = .nan := by
  unfold coerceScore
  cases hx : toNumberJ (orDefault (jsOr (jsOr a b) c) (.num 0)) with
  | nan =>
    right
    simp [jsRound, jsMin, jsMax]
  | num q =>
    left
    refine ⟨max 0 (min 100 ⌊q + 1 / 2⌋), ?_, ?_, ?_⟩
    · have hcast : ((max 0 (min 100 ⌊q + 1 / 2⌋) : ℤ) : ℚ) =
          max 0 (min 100 ((⌊q + 1 / 2⌋ : ℤ) : ℚ)) := by
        push_cast
        rfl
      simp [jsRound, jsMin, jsMax, hcast]
    · exact le_max_left 0 _
    · have h1 : min 100 ⌊q + 1 / 2⌋ ≤ 100 := min_le_left _ _
      omega

theorem orDefault_of_truthy {a : Option Json} {d : Json} (h : truthy a = true) :
    truthyJ (orDefault a d) = true := by
  cases a with
  | none => simp [truthy] at h
  | some v =>
    simp only [truthy] at h
    simp [orDefault, h]

theorem jsOr_of_truthy {a b : Option Json} (h : truthy a = true) : jsOr a b = a := by
  simp [jsOr, h]

/-- C2 (amended): the score coercion of `normalizeLead` yields either an
integer in `[0, 100]` or NaN; each numeric example of the specification
behaves as claimed (`-5` to 0, `137.6` to 100, `42.4` to 42, missing to
0), but the truthy non-numeric string `"abc"` yields NaN rather than 0. -/
theorem normalizeLead_score_range :
    (∀ lead l, normalizeLead lead = some l →
      (∃ n : ℤ, l.relevance_score = .num (n : ℚ) ∧ 0 ≤ n ∧ n ≤ 100) ∨
        l.relevance_score = .nan) ∧
    (normalizeLead (rawLeadWithScore (.num (-5)))).map NormLead.relevance_score = some (.num 0) ∧
    (normalizeLead (rawLeadWithScore (.num (137.6 : ℚ)))).map NormLead.relevance_score
      = some (.num 100) ∧
    (normalizeLead (rawLeadWithScore (.num (42.4 : ℚ)))).map NormLead.relevance_score
      = some (.num 42) ∧
    (normalizeLead rawLeadNoScore).map NormLead.relevance_score = some (.num 0) ∧
    (normalizeLead abcScoreLead).map NormLead.relevance_score = some .nan := by
  refine ⟨?_, ?_, ?_, ?_, ?_, by rfl⟩
  · intro lead l h
    unfold normalizeLead at h
    by_cases hcond :
        ¬ truthy (jsonField lead kName) = true ∨ ¬ truthy (jsonField lead kCompany) = true
    · rw [if_pos hcond] at h
      exact absurd h (by simp)
    · rw [if_neg hcond] at h
      have hl := Option.some.inj h
      rw [← hl]
      exact coerceScore_int_or_nan _ _ _
  · simp [normalizeLead, rawLeadWithScore, jsonField, kName, kTitle, kPosition, kCompany,
      kOrganization, kLocation, kCity, kProfileUrl, kLinkedinUrl, kUrl, kRelevanceScore, kScore,
      kRating, List.lookup, truthy, truthyJ, orDefault, jsOr, coerceScore, toNumberJ, jsRound,
      jsMin, jsMax]
    norm_num [min_def, max_def]
  · simp [normalizeLead, rawLeadWithScore, jsonField, kName, kTitle, kPosition, kCompany,
      kOrganization, kLocation, kCity, kProfileUrl, kLinkedinUrl, kUrl, kRelevanceScore, kScore,
      kRating, List.lookup, truthy, truthyJ, orDefault, jsOr, coerceScore, toNumberJ, jsRound,
      jsMin, jsMax]
    norm_num [min_def, max_def]
  · simp [normalizeLead, rawLeadWithScore, jsonField, kName, kTitle, kPosition, kCompany,
      kOrganization, kLocation, kCity, kProfileUrl, kLinkedinUrl, kUrl, kRelevanceScore, kScore,
      kRating, List.lookup, truthy, truthyJ, orDefault, jsOr, coerceScore, toNumberJ, jsRound,
      jsMin, jsMax]
    norm_num [min_def, max_def]
  · simp [normalizeLead, rawLeadNoScore, jsonField, kName, kTitle, kPosition, kCompany,
      kOrganization, kLocation, kCity, kProfileUrl, kLinkedinUrl, kUrl, kRelevanceScore, kScore,
      kRating, List.lookup, truthy, truthyJ, orDefault, jsOr, coerceScore, toNumberJ, jsRound,
      jsMin, jsMax]
    norm_num [min_def, max_def]

/-- Witness for C2 applying the range disjunction at the concrete record
whose score field is the string `"abc"`. -/
theorem normalizeLead_score_range_witness :
    (∃ n : ℤ, JsNum.nan = JsNum.num (n : ℚ) ∧ 0 ≤ n ∧ n ≤ 100) ∨ JsNum.nan = JsNum.nan :=
  normalizeLead_score_range.1 abcScoreLead
    { name := .str ("Jane"), title := .str (""), company := .str ("Acme"), location := .str (""),
      profile_url := .str (""), relevance_score := .nan } rfl

/-- Counterexample for C2: the record whose raw score is the truthy
non-numeric string `"abc"` normalizes to a NaN score, not the 0 the claim
promises (nor any number in `[0, 100]`). -/
theorem normalizeLead_abc_nan_cex :
    (normalizeLead abcScoreLead).map NormLead.relevance_score = some .nan ∧
    JsNum.nan ≠ .num 0 :=
  ⟨by rfl, by decide⟩

/-- C6: field coercion rejects a record with an empty (falsy) `name` even
when `company` is present; accepts a record with non-empty `name` and
`company`, defaulting `title`, `location` and `profile_url` to the empty
string and `relevance_score` to 0; and every accepted record has truthy
(non-empty) identity fields. -/
theorem normalizeLead_identity_fields (n c : String) :
    normalizeLead (.obj [(kName, .str ("")), (kCompany, Json.str ("Acme"))]) = none ∧
    (n ≠ "" → c ≠ "" →
      normalizeLead (.obj [(kName, .str n), (kCompany, .str c)]) =
        some { name := .str n, title := .str (""), company := .str c, location := .str (""),
               profile_url := .str (""), relevance_score := .num 0 }) ∧
    (∀ lead l, normalizeLead lead = some l →
      truthyJ l.name = true ∧ truthyJ l.company = true) := by
  refine ⟨by rfl, ?_, ?_⟩
  · intro hn hc
    have hn' : (n != "") = true := by simpa using hn
    have hc' : (c != "") = true := by simpa using hc
    unfold normalizeLead
    rw [if_neg]
    · congr 1
      simp [jsonField, kName, kTitle, kPosition, kCompany, kOrganization, kLocation, kCity,
        kProfileUrl, kLinkedinUrl, kUrl, kRelevanceScore, kScore, kRating, List.lookup,
        orDefault, jsOr, truthy, truthyJ, hn', hc', coerceScore, toNumberJ, jsRound, jsMin, jsMax]
      norm_num [min_def, max_def]
    · simp [jsonField, kName, kCompany, List.lookup, truthy, truthyJ, hn', hc']
  · intro lead l h
    unfold normalizeLead at h
    by_cases hcond :
        ¬ truthy (jsonField lead kName) = true ∨ ¬ truthy (jsonField lead kCompany) = true
    · rw [if_pos hcond] at h
      exact absurd h (by simp)
    · rw [if_neg hcond] at h
      push_neg at hcond
      have hl := Option.some.inj h
      rw [← hl]
      constructor
      · exact orDefault_of_truthy hcond.1
      · rw [jsOr_of_truthy hcond.2]
        exact orDefault_of_truthy hcond.2

/-- Witness for C6 at the specification's Jane Doe/Acme record. -/
theorem normalizeLead_identity_fields_witness :
    normalizeLead (.obj [(kName, Json.str ("Jane Doe")), (kCompany, Json.str ("Acme"))]) =
      some { name := .str ("Jane Doe"), title := .str (""), company := .str ("Acme"),
             location := .str (""), profile_url := .str (""), relevance_score := .num 0 } :=
  (normalizeLead_identity_fields ("Jane Doe") ("Acme")).2.1 (by decide) (by decide)

/-- C7 (amended): the three non-streaming variants clamp the effective
target into `[10, 500]` (absent or zero limit defaults to 200, nonzero
values below 10 are raised to 10, values above 500 are lowered to 500),
but the streaming variant applies no bounding at all: it uses the
requested `leadCount` as given, defaulting to 200 only when absent. -/
theorem clampTarget_bounds :
    (∀ limit, 10 ≤ clampTarget limit ∧ clampTarget limit ≤ 500) ∧
    clampTarget none = 200 ∧
    clampTarget (some 0) = 200 ∧
    (∀ q : ℚ, q ≠ 0 → q < 10 → clampTarget (some q) = 10) ∧
    (∀ q : ℚ, 500 < q → clampTarget (some q) = 500) ∧
    (∀ q : ℚ, streamLeadCount (some q) = q) ∧
    streamLeadCount none = 200 := by
  refine ⟨?_, ?_, ?_, ?_, ?_, ?_, ?_⟩
  · intro limit
    unfold clampTarget
    constructor
    · exact le_max_left 10 _
    · exact max_le (by norm_num) (min_le_right _ _)
  · norm_num [clampTarget]
  · norm_num [clampTarget]
  · intro q hq hlt
    have hsome : clampTarget (some q) = max 10 (min (if q = 0 then 200 else q) 500) := rfl
    rw [hsome, if_neg hq]
    rw [min_eq_left (by linarith)]
    rw [max_eq_left (by linarith)]
  · intro q hq
    have hsome : clampTarget (some q) = max 10 (min (if q = 0 then 200 else q) 500) := rfl
    have hqz : q ≠ 0 := by positivity
    rw [hsome, if_neg hqz]
    rw [min_eq_right (by linarith)]
    norm_num
  · intro q
    rfl
  · rfl

/-- Witness for C7 applying the clamp facts at concrete limits. -/
theorem clampTarget_bounds_witness :
    clampTarget (some 5) = 10 ∧ clampTarget (some 1000) = 500 :=
  ⟨clampTarget_bounds.2.2.2.1 5 (by norm_num) (by norm_num),
    clampTarget_bounds.2.2.2.2.1 1000 (by norm_num)⟩

/-- Counterexample for C7: the streaming variant uses a requested count of
7 unchanged, below the claimed lower bound of 10. -/
theorem streamLeadCount_unclamped_cex :
    streamLeadCount (some 7) = 7 ∧ ¬ (10 ≤ streamLeadCount (some 7)) := by
  constructor
  · rfl
  · norm_num [streamLeadCount]

/-! ## Credential-handling lemmas -/

theorem v1Collect_none_key (fetchOracle : String → Except String (List SerpApiResult))
    (mapResult : SerpApiResult → Option LeadV1) (limit : ℕ) :
    ∀ (queries : List String) (acc : List LeadV1),
      v1Collect none fetchOracle mapResult limit queries acc = acc
  | [], acc => rfl
  | q :: qs, acc => by
    simp only [v1Collect, callSerpAPI]
    exact v1Collect_none_key fetchOracle mapResult limit qs acc

/-- C8 (amended): the Perplexity variants throw the missing-credential
error immediately (independently of any upstream behaviour), but the
SerpAPI variant catches the per-query missing-key throw and returns an
empty success, and the streaming enrichment service silently skips
enrichment when `HUNTER_KEY` is absent. -/
theorem credential_failure_modes :
    (∀ phase1 phase2 jobDescription limit,
      generateLeadsV2 none phase1 phase2 jobDescription limit =
        .error ("Missing PERPLEXITY_API_KEY secret")) ∧
    (∀ fetchOracle mapResult queries limit,
      generateLeadsV1 none fetchOracle mapResult queries limit = []) ∧
    (∀ hunterOracle domain, findContactsAtCompany none hunterOracle domain = []) := by
  refine ⟨fun _ _ _ _ => rfl, ?_, fun _ _ => rfl⟩
  intro fetchOracle mapResult queries limit
  unfold generateLeadsV1
  rw [v1Collect_none_key]
  rfl

/-- Witness for C8 applying the fail-fast fact of the Perplexity variant
at concrete oracles. -/
theorem credential_failure_modes_witness :
    generateLeadsV2 none (fun q => .ok q) (fun t => .ok t) ("ML engineer") 200 =
      .error ("Missing PERPLEXITY_API_KEY secret") :=
  credential_failure_modes.1 (fun q => .ok q) (fun t => .ok t) ("ML engineer") 200

/-- Counterexample for C8: with the SerpAPI credential missing but data
available upstream (the demo oracle answers every query, and enrichment
data exists behind the Hunter key), the SerpAPI variant still returns an
empty success rather than failing, and the streaming enrichment service
returns no contacts rather than failing. -/
theorem missingKey_empty_success_cex :
    generateLeadsV1 none demoSerpOracle demoMapResult demoQueries 200 = [] ∧
    (demoSerpOracle ("query one")).isOk = true ∧
    findContactsAtCompany none demoHunterOracle ("acme.com") = [] ∧
    (demoHunterOracle ("acme.com")).isOk = true := by
  refine ⟨?_, by rfl, by rfl, by rfl⟩
  unfold generateLeadsV1
  rw [v1Collect_none_key]
  rfl

/-! ## Streaming-loop lemmas -/

theorem leadEvents_append (a b : List StreamEvent) :
    leadEvents (a ++ b) = leadEvents a ++ leadEvents b := by
  unfold leadEvents
  exact List.filterMap_append a b _

theorem leadEvents_domainEvents (domains : List String) :
    leadEvents (domains.flatMap (fun d => [StreamEvent.domain d, .progress 15])) = [] := by
  induction domains with
  | nil => rfl
  | cons d ds ih =>
    simp only [List.flatMap_cons]
    rw [leadEvents_append]
    rw [ih]
    rfl

theorem processContacts_spec (leadCount : ℕ) (progressVal : ℤ) :
    ∀ (cs : List StreamLead) (st : AggState),
      (processContacts leadCount progressVal cs st).1.emails =
        st.emails ++ (leadEvents (processContacts leadCount progressVal cs st).2).map
          StreamLead.email ∧
      (processContacts leadCount progressVal cs st).1.allLeads =
        st.allLeads ++ leadEvents (processContacts leadCount progressVal cs st).2 ∧
      (st.emails.Nodup → (processContacts leadCount progressVal cs st).1.emails.Nodup) ∧
      (st.allLeads.length ≤ leadCount →
        (processContacts leadCount progressVal cs st).1.allLeads.length ≤ leadCount)
  | [], st => by simp [processContacts, leadEvents]
  | c :: cs, st => by
    by_cases hacc : c.email ∉ st.emails ∧ st.allLeads.length < leadCount
    · have hstep : processContacts leadCount progressVal (c :: cs) st =
          ((processContacts leadCount progressVal cs
              ⟨st.emails ++ [c.email], st.allLeads ++ [c]⟩).1,
            .lead c :: .progress progressVal ::
              (processContacts leadCount progressVal cs
                ⟨st.emails ++ [c.email], st.allLeads ++ [c]⟩).2) := by
        conv_lhs => unfold processContacts
        rw [if_pos hacc]
      obtain ⟨ih1, ih2, ih3, ih4⟩ := processContacts_spec leadCount progressVal cs
        ⟨st.emails ++ [c.email], st.allLeads ++ [c]⟩
      rw [hstep]
      have hev : leadEvents (.lead c :: .progress progressVal ::
          (processContacts leadCount progressVal cs
            ⟨st.emails ++ [c.email], st.allLeads ++ [c]⟩).2) =
          c :: leadEvents (processContacts leadCount progressVal cs
            ⟨st.emails ++ [c.email], st.allLeads ++ [c]⟩).2 := by
        unfold leadEvents
        rfl
      refine ⟨?_, ?_, ?_, ?_⟩
      · rw [hev, ih1]
        simp
      · rw [hev, ih2]
        simp
      · intro hnd
        apply ih3
        simp only [List.nodup_append, List.nodup_singleton]
        refine ⟨hnd, trivial, ?_⟩
        intro a ha hb
        rw [List.mem_singleton.mp hb] at ha
        exact hacc.1 ha
      · intro _
        apply ih4
        simp only [List.length_append, List.length_singleton]
        omega
    · have hstep : processContacts leadCount progressVal (c :: cs) st =
          processContacts leadCount progressVal cs st := by
        conv_lhs => unfold processContacts
        rw [if_neg hacc]
      rw [hstep]
      exact processContacts_spec leadCount progressVal cs st


theorem processDomains_spec (hunterKey : Option String)
    (hunterOracle : String → Except String (List HunterContact))
    (leadCount totalDomains : ℕ) :
    ∀ (ds : List String) (processed : ℕ) (st : AggState),
      (processDomains hunterKey hunterOracle leadCount totalDomains ds processed st).1.emails =
        st.emails ++
          (leadEvents (processDomains hunterKey hunterOracle leadCount totalDomains ds
            processed st).2).map StreamLead.email ∧
      (processDomains hunterKey hunterOracle leadCount totalDomains ds processed st).1.allLeads =
        st.allLeads ++
          leadEvents (processDomains hunterKey hunterOracle leadCount totalDomains ds
            processed st).2 ∧
      (st.emails.Nodup →
        (processDomains hunterKey hunterOracle leadCount totalDomains ds
          processed st).1.emails.Nodup) ∧
      (st.allLeads.length ≤ leadCount →
        (processDomains hunterKey hunterOracle leadCount totalDomains ds
          processed st).1.allLeads.length ≤ leadCount)
  | [], processed, st => by simp [processDomains, leadEvents]
  | d :: ds, processed, st => by
    by_cases hbreak : leadCount ≤ st.allLeads.length
    · have hstep : processDomains hunterKey hunterOracle leadCount totalDomains (d :: ds)
          processed st = (st, []) := by
        conv_lhs => unfold processDomains
        rw [if_pos hbreak]
      rw [hstep]
      simp [leadEvents]
    · have hstep : processDomains hunterKey hunterOracle leadCount totalDomains (d :: ds)
          processed st =
          ((processDomains hunterKey hunterOracle leadCount totalDomains ds (processed + 1)
              (processContacts leadCount (20 + ((processed * 70) / totalDomains : ℕ))
                (findContactsAtCompany hunterKey hunterOracle d) st).1).1,
            (processContacts leadCount (20 + ((processed * 70) / totalDomains : ℕ))
              (findContactsAtCompany hunterKey hunterOracle d) st).2 ++
            (processDomains hunterKey hunterOracle leadCount totalDomains ds (processed + 1)
              (processContacts leadCount (20 + ((processed * 70) / totalDomains : ℕ))
                (findContactsAtCompany hunterKey hunterOracle d) st).1).2) := by
        conv_lhs => unfold processDomains
        rw [if_neg hbreak]
      obtain ⟨hc1, hc2, hc3, hc4⟩ := processContacts_spec leadCount
        (20 + ((processed * 70) / totalDomains : ℕ))
        (findContactsAtCompany hunterKey hunterOracle d) st
      obtain ⟨hd1, hd2, hd3, hd4⟩ := processDomains_spec hunterKey hunterOracle leadCount
        totalDomains ds (processed + 1)
        (processContacts leadCount (20 + ((processed * 70) / totalDomains : ℕ))
          (findContactsAtCompany hunterKey hunterOracle d) st).1
      rw [hstep]
      refine ⟨?_, ?_, ?_, ?_⟩
      · simp only [leadEvents_append, List.map_append]
        rw [hd1, hc1]
        simp
      · simp only [leadEvents_append]
        rw [hd2, hc2]
        simp
      · intro hnd
        exact hd3 (hc3 hnd)
      · intro hlen
        exact hd4 (hc4 hlen)

/-- C10: in the streaming aggregation service, the emitted lead events
carry pairwise distinct emails, their number never exceeds the requested
`leadCount`, and the returned lead list is also bounded by `leadCount`. -/
theorem streaming_lead_events_bounded (hunterKey : Option String)
    (hunterOracle : String → Except String (List HunterContact))
    (domains : List String) (leadCount : ℕ) :
    ((leadEvents (generateLeadsWithStreaming hunterKey hunterOracle domains
      leadCount).1).map StreamLead.email).Nodup ∧
    (leadEvents (generateLeadsWithStreaming hunterKey hunterOracle domains
      leadCount).1).length ≤ leadCount ∧
    (∀ result, (generateLeadsWithStreaming hunterKey hunterOracle domains leadCount).2 =
      .ok result → result.length ≤ leadCount) := by
  by_cases hdom : domains.isEmpty
  · unfold generateLeadsWithStreaming
    rw [if_pos hdom]
    refine ⟨by simp [leadEvents], by simp [leadEvents], ?_⟩
    intro result h
    exact absurd h (by simp)
  · obtain ⟨hd1, hd2, hd3, hd4⟩ := processDomains_spec hunterKey hunterOracle leadCount
      domains.length domains 0 ⟨[], []⟩
    have hstep : generateLeadsWithStreaming hunterKey hunterOracle domains leadCount =
        ([StreamEvent.progress 10] ++
          domains.flatMap (fun d => [StreamEvent.domain d, .progress 15]) ++
          [.progress 20] ++
          (processDomains hunterKey hunterOracle leadCount domains.length domains 0
            ⟨[], []⟩).2 ++ [.progress 100],
          .ok ((((processDomains hunterKey hunterOracle leadCount domains.length domains 0
            ⟨[], []⟩).1.allLeads).mergeSort confDescLe).take leadCount)) := by
      unfold generateLeadsWithStreaming
      rw [if_neg hdom]
    rw [hstep]
    have hevents : leadEvents ([StreamEvent.progress 10] ++
        domains.flatMap (fun d => [StreamEvent.domain d, .progress 15]) ++
        [.progress 20] ++
        (processDomains hunterKey hunterOracle leadCount domains.length domains 0
          ⟨[], []⟩).2 ++ [.progress 100]) =
        leadEvents (processDomains hunterKey hunterOracle leadCount domains.length domains 0
          ⟨[], []⟩).2 := by
      simp only [leadEvents_append, leadEvents_domainEvents]
      simp [leadEvents]
    rw [hevents]
    simp only [List.nil_append] at hd1 hd2
    refine ⟨?_, ?_, ?_⟩
    · rw [← hd1]
      exact hd3 List.nodup_nil
    · have hlen : (leadEvents (processDomains hunterKey hunterOracle leadCount domains.length
          domains 0 ⟨[], []⟩).2).length =
          (processDomains hunterKey hunterOracle leadCount domains.length domains 0
            ⟨[], []⟩).1.allLeads.length := by
        rw [hd2]
      rw [hlen]
      exact hd4 (by simp)
    · intro result h
      have hres := Except.ok.inj h
      rw [← hres]
      calc ((((processDomains hunterKey hunterOracle leadCount domains.length domains 0
              ⟨[], []⟩).1.allLeads).mergeSort confDescLe).take leadCount).length
          ≤ leadCount := by
            rw [List.length_take]
            exact min_le_left _ _

/-- Witness for C10's returned-list bound at a concrete run. -/
theorem streaming_lead_events_bounded_witness :
    (((generateLeadsWithStreaming (some ("hk")) demoHunterOracle ["acme.com"] 5).2.toOption).getD
      []).length ≤ 5 := by
  have h := (streaming_lead_events_bounded (some ("hk")) demoHunterOracle ["acme.com"] 5).2.2
  cases hres : (generateLeadsWithStreaming (some ("hk")) demoHunterOracle ["acme.com"] 5).2 with
  | ok result =>
    have := h result hres
    simpa [hres] using this
  | error e =>
    simp [hres, Except.toOption]

/-- C9: every streaming response ends with the `[DONE]` terminator, and a
run that discovers zero company domains emits exactly one progress event
then an `error` event immediately followed by the terminator, with no
`lead` events. -/
theorem streaming_terminator (hunterKey : Option String)
    (hunterOracle : String → Except String (List HunterContact))
    (domains : List String) (leadCount : ℕ) :
    (streamResponse hunterKey hunterOracle domains leadCount).getLast? = some .done ∧
    (domains = [] →
      streamResponse hunterKey hunterOracle domains leadCount =
        [.progress 10,
          .error ("No companies found. Try a broader job title or remove location filter."),
          .done] ∧
      leadEvents (streamResponse hunterKey hunterOracle domains leadCount) = []) := by
  constructor
  · unfold streamResponse
    cases hrun : generateLeadsWithStreaming hunterKey hunterOracle domains leadCount with
    | mk events outcome =>
      cases outcome with
      | ok result => simp
      | error msg => simp
  · intro hdom
    subst hdom
    constructor
    · rfl
    · rfl

/-- Witness for C9 at a concrete zero-domain run. -/
theorem streaming_terminator_witness :
    streamResponse (some ("hk")) demoHunterOracle [] 200 =
      [.progress 10,
        .error ("No companies found. Try a broader job title or remove location filter."),
        .done] :=
  ((streaming_terminator (some ("hk")) demoHunterOracle [] 200).2 rfl).1

/-! ## Company-listing variant lemmas -/

theorem companiesToLeads_length (cs : List Company) :
    (companiesToLeads cs).length = cs.length := by
  simp [companiesToLeads, List.enum_length]

theorem companiesToLeads_mem_score {cs : List Company} {l : Lead}
    (h : l ∈ companiesToLeads cs) :
    ∃ i : ℕ, i < cs.length ∧ l.relevance_score = 100 - (i : ℤ) := by
  unfold companiesToLeads at h
  obtain ⟨p, hp, hpl⟩ := List.mem_map.mp h
  obtain ⟨i, c⟩ := p
  have hi := List.mem_enum hp
  refine ⟨i, hi.1, ?_⟩
  rw [← hpl]

theorem companiesToLeads_score_at (cs : List Company) (i : ℕ) (h : i < cs.length) :
    ∃ l ∈ companiesToLeads cs, l.relevance_score = 100 - (i : ℤ) := by
  have hlen : i < (companiesToLeads cs).length := by
    rw [companiesToLeads_length]
    exact h
  refine ⟨(companiesToLeads cs).get ⟨i, hlen⟩, List.get_mem (companiesToLeads cs) i hlen, ?_⟩
  simp [companiesToLeads, List.getElem_map, List.getElem_enum]

/-- C3 (amended): in the company-listing variant every output lead has
`relevance_score = 100 - position`, hence at most 100; the claimed lower
bound 0 holds exactly when the output has at most 101 entries, and fails
beyond that. -/
theorem phase3Leads_score_bounds (companies : List Company) (limit : ℕ) :
    (∀ l ∈ phase3Leads companies limit, l.relevance_score ≤ 100) ∧
    ((phase3Leads companies limit).length ≤ 101 →
      ∀ l ∈ phase3Leads companies limit, 0 ≤ l.relevance_score ∧ l.relevance_score ≤ 100) := by
  constructor
  · intro l hl
    obtain ⟨i, hi, hscore⟩ := companiesToLeads_mem_score hl
    omega
  · intro hbound l hl
    obtain ⟨i, hi, hscore⟩ := companiesToLeads_mem_score hl
    have hlen : (phase3Leads companies limit).length =
        (((dedupeCompanies companies).mergeSort companyNameLe).take limit).length :=
      companiesToLeads_length _
    rw [hlen] at hbound
    constructor
    · omega
    · omega

set_option maxRecDepth 40000 in
/-- Witness for C3's conditional bound, instantiated at the single lead of
a one-company run. -/
theorem phase3Leads_score_bounds_witness :
    0 ≤ soloLead.relevance_score ∧ soloLead.relevance_score ≤ 100 := by
  have heq : phase3Leads [soloCompany] 200 = [soloLead] := by
    unfold phase3Leads
    rw [show dedupeCompanies [soloCompany] = [soloCompany] from rfl]
    rw [List.mergeSort_singleton]
    rfl
  have hbound : (phase3Leads [soloCompany] 200).length ≤ 101 := by
    rw [heq]
    simp
  exact (phase3Leads_score_bounds [soloCompany] 200).2 hbound soloLead (by rw [heq]; simp)

set_option maxRecDepth 40000 in
/-- Counterexample for C3: a run discovering 102 distinct companies
produces a lead (at position 101) whose score `100 - 101 = -1` falls
below 0, violating the `[0, 100]` invariant. -/
theorem phase3Leads_negative_score_cex :
    ¬ (∀ l ∈ phase3Leads manyCompanies 200,
        0 ≤ l.relevance_score ∧ l.relevance_score ≤ 100) := by
  intro hall
  have hdlen : (dedupeCompanies manyCompanies).length = 102 := by rfl
  have hslen : (((dedupeCompanies manyCompanies).mergeSort companyNameLe).take 200).length
      = 102 := by
    rw [List.length_take, List.length_mergeSort, hdlen]
    omega
  obtain ⟨l, hl, hscore⟩ := companiesToLeads_score_at
    (((dedupeCompanies manyCompanies).mergeSort companyNameLe).take 200) 101
    (by rw [hslen]; omega)
  have := hall l hl
  omega

/-! ## Extraction lemmas -/

theorem findIdx?_split {p : Char → Bool} :
    ∀ (pre : List Char) (c : Char) (rest : List Char) (i : ℕ),
      (∀ x ∈ pre, p x = false) → p c = true →
      List.findIdx? p (pre ++ c :: rest) i = some (i + pre.length)
  | [], c, rest, i, _, hc => by simp [List.findIdx?_cons, hc]
  | x :: xs, c, rest, i, hpre, hc => by
    have hx : p x = false := hpre x (List.mem_cons_self x xs)
    simp only [List.cons_append, List.findIdx?_cons, hx]
    rw [if_neg (by simp)]
    rw [findIdx?_split xs c rest (i + 1) (fun y hy => hpre y (List.mem_cons_of_mem x hy)) hc]
    congr 1
    simp only [List.length_cons]
    omega

theorem safeExtractJson_eq (text : String) (start : ℕ)
    (hfind : (cleanFences text).findIdx? (fun c => decide (c = '[')) = some start) :
    safeExtractJson text =
      match parseJson (String.mk (((cleanFences text).drop start).take
        ((lastIndexOfRB (cleanFences text) + 1 - (start : ℤ)).toNat))) with
      | some (.arr elems) => elems
      | some _ => []
      | none => [] := by
  unfold safeExtractJson
  rw [hfind]

/-- C5: `safeExtractJson` is total (never raises); when the fence-stripped
text contains no opening bracket it returns the empty list, and otherwise
it parses exactly the span from the first opening to the last closing
square bracket, returning the parsed array on success and falling back to
the empty list when that span fails to parse (including when no closing
bracket exists before the opening one). -/
theorem safeExtractJson_spec (text : String) :
    ('[' ∉ cleanFences text → safeExtractJson text = []) ∧
    (∀ pre mid post, cleanFences text = pre ++ '[' :: (mid ++ ']' :: post) →
      '[' ∉ pre → ']' ∉ post →
      safeExtractJson text =
        match parseJson (String.mk ('[' :: (mid ++ [']']))) with
        | some (.arr elems) => elems
        | some _ => []
        | none => []) := by
  constructor
  · intro hno
    unfold safeExtractJson
    have hfind : (cleanFences text).findIdx? (fun c => decide (c = '[')) = none := by
      rw [List.findIdx?_eq_none_iff]
      intro x hx
      simp only [decide_eq_false_iff_not]
      intro hcontra
      rw [hcontra] at hx
      exact hno hx
    rw [hfind]
  · intro pre mid post hsplit hpre hpost
    have hfind : (cleanFences text).findIdx? (fun c => decide (c = '[')) = some pre.length := by
      rw [hsplit]
      have hgen := findIdx?_split (p := fun c => decide (c = '[')) pre '[' (mid ++ ']' :: post) 0
        (fun x hx => by
          simp only [decide_eq_false_iff_not]
          intro hcontra
          rw [hcontra] at hx
          exact hpre hx)
        (by simp)
      simpa using hgen
    have hlast : lastIndexOfRB (cleanFences text) =
        (pre.length : ℤ) + mid.length + 1 := by
      unfold lastIndexOfRB
      have hrevsplit : (cleanFences text).reverse =
          post.reverse ++ ']' :: (mid.reverse ++ '[' :: pre.reverse) := by
        rw [hsplit]
        simp
      rw [hrevsplit]
      rw [findIdx?_split (p := fun c => decide (c = ']')) post.reverse ']'
        (mid.reverse ++ '[' :: pre.reverse) 0
        (fun x hx => by
          simp only [decide_eq_false_iff_not]
          intro hcontra
          rw [hcontra] at hx
          exact hpost (List.mem_reverse.mp hx))
        (by simp)]
      have hlen : (cleanFences text).length =
          pre.length + mid.length + post.length + 2 := by
        rw [hsplit]
        simp
        omega
      rw [hlen]
      push_cast [List.length_reverse]
      ring
    rw [safeExtractJson_eq text pre.length hfind]
    have hdrop : (cleanFences text).drop pre.length = '[' :: (mid ++ ']' :: post) := by
      rw [hsplit]
      exact List.drop_left pre _
    have htonat : ((lastIndexOfRB (cleanFences text) + 1 - (pre.length : ℤ))).toNat =
        mid.length + 2 := by
      rw [hlast]
      omega
    rw [hdrop, htonat]
    have htake : ('[' :: (mid ++ ']' :: post)).take (mid.length + 2) =
        '[' :: (mid ++ [']']) := by
      rw [List.take_cons (by omega)]
      have h2 : mid.length + 2 - 1 = mid.length + 1 := by omega
      rw [h2]
      rw [show mid.length + 1 = mid.length + 1 from rfl, List.take_append 1]
      simp
    rw [htake]

/-- Witness for C5: the specification's Markdown-fenced example extracts
exactly its one-record array, and bracketless prose extracts the empty
list. -/
theorem safeExtractJson_spec_witness :
    safeExtractJson exampleFenceText =
      [Json.obj [(kName, Json.str ("A")), (kCompany, Json.str ("B"))]] ∧
    safeExtractJson ("no data found") = [] := by
  constructor
  · have h := (safeExtractJson_spec exampleFenceText).2 examplePre exampleMid examplePost
      (by rfl) (by decide) (by decide)
    rw [h]
    rfl
  · have h := (safeExtractJson_spec ("no data found")).1 (by decide)
    rw [h]
